import Mathlib

/-!
# Verification of the OASIC VLIW scheduler's constraint builder

Shallow embedding of `OasicScheduler.schedule` from
`src/oasic_vliw_scheduler.py`.  The builder turns a program
(instructions `n_i`, true-dependency edges `E_d_true`, valid windows `N`,
horizon `M_steps`) and a machine model (unit kinds `n_r_f`, capacities
`R`, eligibility list `e_r`, latency table `Q_k_i`) into a list of
linear 0/1 constraints.  Machine integers are `Nat` (cycles, bounds) and
`Int` (the signed difference `nn_j - nn_i + 1` of line 121); the Python
dict `Q_k_i` is an association list; a computation that would raise
(`max([])` on line 120) is modelled by an `Option` result.
-/

set_option maxHeartbeats 1000000
set_option linter.unusedSectionVars false
set_option linter.unusedVariables false

namespace Oasic

/-- The data captured by `OasicScheduler.__init__` (lines 43–53). -/
structure SchedInput (ι κ : Type) where
  n_i : List ι
  E_d_true : List (ι × ι × String)
  N : ι → List Nat
  M_steps : Nat
  n_r_f : List κ
  R : κ → Nat
  e_r : List (ι × κ)
  Q_k_i : List ((κ × ι) × Nat)

/-- Comparison operator of a pulp linear constraint. -/
inductive Cmp : Type
  | le : Cmp
  | eq : Cmp
deriving DecidableEq

/-- A linear constraint over the 0/1 variables `x[(j,n,k)]`: every listed
variable occurs with coefficient one (a variable listed twice has
coefficient two, as with pulp's `sum`), compared with `bound`. -/
structure Constr (ι κ : Type) where
  vars : List (ι × Nat × κ)
  cmp : Cmp
  bound : Nat
deriving DecidableEq

variable {ι κ : Type} [DecidableEq ι] [DecidableEq κ]

/-- Line 64: the decision-variable list is the full cross product of
instructions, unit kinds and cycles `range(1, M_steps+1)`. -/
def decision_variable (s : SchedInput ι κ) : List (ι × Nat × κ) :=
  s.n_i.flatMap fun j =>
    s.n_r_f.flatMap fun k =>
      (List.range' 1 s.M_steps).map fun n => (j, n, k)

/-- Lookup in the latency dict: `Q_k_i[(k,i)]` when `(k,i)` is a key. -/
def qfind (s : SchedInput ι κ) (k : κ) (i : ι) : Option Nat :=
  (s.Q_k_i.find? fun e => decide (e.1 = (k, i))).map (·.2)

/-- The variables summed by the assignment constraint of instruction `j`
(line 88): all `(j,n,k)` with `k` in `n_r_f`, `(j,k)` in `e_r`, `n` in `N[j]`. -/
def assign_vars (s : SchedInput ι κ) (j : ι) : List (ι × Nat × κ) :=
  s.n_r_f.flatMap fun k =>
    if (j, k) ∈ s.e_r then (s.N j).map (fun n => (j, n, k)) else []

/-- Line 88 for one instruction.  When the eligible unit-cycle index set
of `j` is non-empty, `sum(...)` is a pulp linear expression and `== 1`
yields a constraint.  When it is empty, Python's `sum` returns the int
`0`, so `0 == 1` evaluates to the plain bool `False`, and
`oasic_model += False` raises `TypeError` in pulp's
`LpProblem.__iadd__` — no constraint object is ever formed; modelled as
`none`. -/
def assignment_constraint (s : SchedInput ι κ) (j : ι) : Option (Constr ι κ) :=
  if assign_vars s j = [] then none else some ⟨assign_vars s j, Cmp.eq, 1⟩

/-- Lines 87–88 over a list of instructions, `none` when line 88 raises
on one of them. -/
def assignment_section (s : SchedInput ι κ) : List ι → Option (List (Constr ι κ))
  | [] => some []
  | j :: rest =>
    match assignment_constraint s j, assignment_section s rest with
    | some c, some cs => some (c :: cs)
    | _, _ => none

/-- Lines 87–88 applied to the program's instruction list. -/
def assignment_constraints (s : SchedInput ι κ) : Option (List (Constr ι κ)) :=
  assignment_section s s.n_i

/-- The variables summed by the resource constraint of `(k,n)` (line 102). -/
def resource_vars (s : SchedInput ι κ) (k : κ) (n : Nat) : List (ι × Nat × κ) :=
  (s.n_i.filter fun j => decide ((j, k) ∈ s.e_r)).map fun j => (j, n, k)

/-- Lines 100–102: one `<= R[k]` constraint per unit kind and cycle. -/
def resource_constraints (s : SchedInput ι κ) : List (Constr ι κ) :=
  s.n_r_f.flatMap fun k =>
    (List.range' 1 s.M_steps).map fun n => ⟨resource_vars s k n, Cmp.le, s.R k⟩

/-- `[kk for (ii,kk) in e_r if ii == i]` (line 121). -/
def elig_units (s : SchedInput ι κ) (i : ι) : List κ :=
  (s.e_r.filter fun p => decide (p.1 = i)).map (·.2)

/-- `[Q_k_i[(kk,ii)] for (kk,ii) in Q_k_i.keys() if ii == i]` (line 120). -/
def lat_list (s : SchedInput ι κ) (i : ι) : List Nat :=
  (s.Q_k_i.filter fun e => decide (e.1.2 = i)).map (·.2)

/-- The unfiltered cycle pairs `(nn_i, nn_j)` of line 120. -/
def cand_pairs (s : SchedInput ι κ) (i j : ι) : List (Nat × Nat) :=
  (s.N i).flatMap fun ni => (s.N j).map fun nj => (ni, nj)

/-- Line 120: the candidate pairs kept by `nn_j <= nn_i + max(...)`.
Python's `max([])` raises `ValueError`; since the `max` is evaluated once
per candidate pair, the result is `none` exactly when a pair is tested
while instruction `i` has no latency entry. -/
def dep_pairs (s : SchedInput ι κ) (i j : ι) : Option (List (Nat × Nat)) :=
  match (lat_list s i).max? with
  | some L => some ((cand_pairs s i j).filter fun p => decide (p.2 ≤ p.1 + L))
  | none => if cand_pairs s i j = [] then some [] else none

/-- The guard of the first sum of line 121:
`(k,i) in Q_k_i.keys() and Q_k_i[(k,i)] >= nn_j - nn_i + 1`. -/
def qpass (s : SchedInput ι κ) (k : κ) (i : ι) (ni nj : Nat) : Bool :=
  match qfind s k i with
  | some q => decide ((nj : Int) - (ni : Int) + 1 ≤ (q : Int))
  | none => false

/-- Line 121: the disjunctive dependence constraint for edge `(i,j)` at the
cycle pair `(ni, nj)`. -/
def dep_constraint (s : SchedInput ι κ) (i j : ι) (ni nj : Nat) : Constr ι κ :=
  ⟨((elig_units s i).filter fun k => qpass s k i ni nj).map (fun k => (i, ni, k))
      ++ (elig_units s j).map (fun k => (j, nj, k)),
    Cmp.le, 1⟩

/-- The dependence constraints emitted for a list of edges (lines 119–121),
`none` when the generation would raise. -/
def dep_section (s : SchedInput ι κ) : List (ι × ι × String) → Option (List (Constr ι κ))
  | [] => some []
  | (i, j, _) :: rest =>
    match dep_pairs s i j, dep_section s rest with
    | some ps, some cs => some (ps.map (fun p => dep_constraint s i j p.1 p.2) ++ cs)
    | _, _ => none

/-- Lines 119–121 applied to the program's edge list. -/
def dependence_constraints (s : SchedInput ι κ) : Option (List (Constr ι κ)) :=
  dep_section s s.E_d_true

/-- The complete constraint system handed to the solver (lines 79–121):
assignment (lines 87–88, which raise `TypeError` on an empty sum), then
resource (lines 100–102, which never raise: an empty sum gives
`0 <= R[k]`, the bool `True`, which pulp's `+=` accepts), then dependence
constraints (lines 119–121, which can raise `ValueError`).  `none` models
construction dying before the solve call, in the source's evaluation
order: line 88 fires before lines 119–121 are reached. -/
def build_model (s : SchedInput ι κ) : Option (List (Constr ι κ)) :=
  (assignment_constraints s).bind fun a =>
    (dependence_constraints s).map fun d =>
      a ++ resource_constraints s ++ d

/-- The assembled model, empty when generation raised. -/
def the_model (s : SchedInput ι κ) : List (Constr ι κ) :=
  (build_model s).getD []

/-- The left-hand side of a constraint under an assignment `x`. -/
def constr_sum (x : ι × Nat × κ → Nat) (c : Constr ι κ) : Nat :=
  (c.vars.map x).sum

/-- An assignment satisfies one linear constraint. -/
def satisfies (x : ι × Nat × κ → Nat) (c : Constr ι κ) : Prop :=
  match c.cmp with
  | Cmp.le => constr_sum x c ≤ c.bound
  | Cmp.eq => constr_sum x c = c.bound

instance (x : ι × Nat × κ → Nat) (c : Constr ι κ) : Decidable (satisfies x c) := by
  unfold satisfies
  cases c.cmp
  case le => exact inferInstanceAs (Decidable (_ ≤ _))
  case eq => exact inferInstanceAs (Decidable (_ = _))

/-- A feasible 0/1 solution of the assembled model: binary on every
decision variable and satisfying every constraint. -/
def Feasible (s : SchedInput ι κ) (x : ι × Nat × κ → Nat) : Prop :=
  (∀ v ∈ decision_variable s, x v ≤ 1) ∧ ∀ c ∈ the_model s, satisfies x c

instance (s : SchedInput ι κ) (x : ι × Nat × κ → Nat) : Decidable (Feasible s x) :=
  inferInstanceAs (Decidable (_ ∧ _))

/-! ## Specification-side definitions (for the refinement claims)

These are written from the spec's wording (section 4.4) to be compared
with the builder's output; everything above is translated from the code. -/

/-- Spec wording: `L_max(i)`, the maximum latency of `i` across all its
eligible units. -/
def spec_Lmax (s : SchedInput ι κ) (i : ι) : Option Nat :=
  ((elig_units s i).filterMap fun k => qfind s k i).max?

/-- Spec wording: the candidate cycle pairs `(n_i ∈ N(i), n_j ∈ N(j))`
with `n_j ≤ n_i + L_max(i)`. -/
def spec_pairs (s : SchedInput ι κ) (i j : ι) (L : Nat) : List (Nat × Nat) :=
  (cand_pairs s i j).filter fun p => decide (p.2 ≤ p.1 + L)

/-- Spec wording: the disjunctive constraint for edge `(i,j)` at `(ni,nj)`:
`x[i,n_i,k]` summed over every unit `k` eligible for `i` with
`Q[k,i] ≥ n_j − n_i + 1`, plus `x[j,n_j,k']` over every unit `k'` eligible
for `j`, at most `1`. -/
def spec_dep_constraint (s : SchedInput ι κ) (i j : ι) (ni nj : Nat) : Constr ι κ :=
  ⟨((elig_units s i).filter fun k =>
        decide ((nj : Int) - (ni : Int) + 1 ≤ (((qfind s k i).getD 0 : Nat) : Int))).map
      (fun k => (i, ni, k))
      ++ (elig_units s j).map (fun k => (j, nj, k)),
    Cmp.le, 1⟩

/-- Spec wording: for every true-dependency edge and every qualifying cycle
pair, exactly one constraint of the form `spec_dep_constraint`, and no
dependency constraints other than these. -/
def spec_dep_section (s : SchedInput ι κ) : List (Constr ι κ) :=
  s.E_d_true.flatMap fun e =>
    (spec_pairs s e.1 e.2.1 ((spec_Lmax s e.1).getD 0)).map fun p =>
      spec_dep_constraint s e.1 e.2.1 p.1 p.2

/-! ## The result of `schedule()` after the solve call

Lines 127–161 of the source: after `oasic_model.solve()` the method prints
the chosen variables and an occupancy grid and then falls off the end of
the function body, so Python returns `None` to the caller on every path —
there is no branch on the solver's status. -/

/-- What the external ILP solver reports back for the assembled model. -/
inductive SolverOutcome (ι κ : Type) : Type
  | feasible (x : ι × Nat × κ → Nat) : SolverOutcome ι κ
  | infeasible : SolverOutcome ι κ

/-- The value `schedule()` returns to its caller (lines 127–161): the
method body has no `return` statement, so the returned value is Python's
`None` — embedded as `none` — whatever the solver reported. -/
def schedule_return (s : SchedInput ι κ) (o : SolverOutcome ι κ) :
    Option (List (ι × Nat × κ)) :=
  none

/-! ## Concrete inputs used by witnesses and counterexamples -/

/-- A one-instruction input with an ineligible second unit kind. -/
def exA : SchedInput String String :=
  { n_i := ["i"], E_d_true := [], N := fun _ => [1], M_steps := 2,
    n_r_f := ["ALU", "MUL"], R := fun _ => 1,
    e_r := [("i", "ALU")], Q_k_i := [(("ALU", "i"), 1)] }

/-- A one-instruction input whose valid window `[1]` is strictly inside the
horizon `M = 2`. -/
def exB : SchedInput String String :=
  { n_i := ["i"], E_d_true := [], N := fun _ => [1], M_steps := 2,
    n_r_f := ["ALU"], R := fun _ => 1,
    e_r := [("i", "ALU")], Q_k_i := [(("ALU", "i"), 1)] }

/-- `exB` with the valid window widened to `[1, 2]`. -/
def exB' : SchedInput String String :=
  { exB with N := fun _ => [1, 2] }

/-- An assignment that issues `i` at both cycle 1 and cycle 2. -/
def xB : String × Nat × String → Nat :=
  fun v => if v = ("i", 1, "ALU") ∨ v = ("i", 2, "ALU") then 1 else 0

/-- An assignment that issues `i` at cycle 1 only and vanishes elsewhere. -/
def xB1 : String × Nat × String → Nat :=
  fun v => if v = ("i", 1, "ALU") then 1 else 0

/-- Two instructions on one unit with a true dependency `i → j` and
latency `Q[ALU,i] = 2`. -/
def exC : SchedInput String String :=
  { n_i := ["i", "j"], E_d_true := [("i", "j", "a")], N := fun _ => [1, 2, 3],
    M_steps := 3, n_r_f := ["ALU"], R := fun _ => 1,
    e_r := [("i", "ALU"), ("j", "ALU")], Q_k_i := [(("ALU", "i"), 2), (("ALU", "j"), 1)] }

/-- A feasible schedule for `exC`: `i` at cycle 1, `j` at cycle 3. -/
def xC : String × Nat × String → Nat :=
  fun v => if v = ("i", 1, "ALU") ∨ v = ("j", 3, "ALU") then 1 else 0

/-- A malformed input: instruction `a` has no eligible unit kind (hence no
latency entry) yet is the producer of a dependency edge. -/
def exD : SchedInput String String :=
  { n_i := ["a", "b"], E_d_true := [("a", "b", "r")], N := fun _ => [1],
    M_steps := 1, n_r_f := ["ALU"], R := fun _ => 1,
    e_r := [("b", "ALU")], Q_k_i := [(("ALU", "b"), 1)] }

/-- A malformed input: instruction `a` has an eligible unit but an empty
valid window, and no dependency edges. -/
def exE : SchedInput String String :=
  { n_i := ["a"], E_d_true := [], N := fun _ => [], M_steps := 1,
    n_r_f := ["ALU"], R := fun _ => 1,
    e_r := [("a", "ALU")], Q_k_i := [(("ALU", "a"), 1)] }

/-! ## Basic lemmas about the embedded builder -/

lemma mem_elig_units {s : SchedInput ι κ} {i : ι} {k : κ} :
    k ∈ elig_units s i ↔ (i, k) ∈ s.e_r := by
  simp only [elig_units, List.mem_map, List.mem_filter, decide_eq_true_eq]
  constructor
  · rintro ⟨⟨i', k'⟩, ⟨hp, rfl⟩, rfl⟩
    exact hp
  · intro h
    exact ⟨(i, k), ⟨h, rfl⟩, rfl⟩

lemma qfind_mem {s : SchedInput ι κ} {k : κ} {i : ι} {q : Nat}
    (h : qfind s k i = some q) : ((k, i), q) ∈ s.Q_k_i := by
  simp only [qfind, Option.map_eq_some'] at h
  · obtain ⟨e, he, hq⟩ := h
    have hmem := List.mem_of_find?_eq_some he
    have hkey := List.find?_some he
    simp only [decide_eq_true_eq] at hkey
    obtain ⟨ke, qe⟩ := e
    cases hkey
    cases hq
    exact hmem

lemma qfind_eq_some_of_mem {s : SchedInput ι κ}
    (hkeys : (s.Q_k_i.map (·.1)).Nodup) {k : κ} {i : ι} {q : Nat}
    (h : ((k, i), q) ∈ s.Q_k_i) : qfind s k i = some q := by
  have hsome : (s.Q_k_i.find? fun e => decide (e.1 = (k, i))).isSome := by
    rw [List.find?_isSome]
    exact ⟨((k, i), q), h, by simp⟩
  obtain ⟨e, he⟩ := Option.isSome_iff_exists.mp hsome
  have hmem := List.mem_of_find?_eq_some he
  have hkey := List.find?_some he
  simp only [decide_eq_true_eq] at hkey
  have : e = ((k, i), q) :=
    List.inj_on_of_nodup_map hkeys hmem h (by simpa using hkey)
  simp [qfind, he, this]

lemma mem_lat_list_iff {s : SchedInput ι κ} {i : ι} {q : Nat} :
    q ∈ lat_list s i ↔ ∃ k, ((k, i), q) ∈ s.Q_k_i := by
  simp only [lat_list, List.mem_map, List.mem_filter, decide_eq_true_eq]
  constructor
  · rintro ⟨⟨⟨ke, ie⟩, qe⟩, ⟨hp, rfl⟩, rfl⟩
    exact ⟨ke, hp⟩
  · rintro ⟨ke, hk⟩
    exact ⟨((ke, i), q), ⟨hk, rfl⟩, rfl⟩

lemma natMax?_mem {l : List Nat} {a : Nat} (h : l.max? = some a) : a ∈ l :=
  List.max?_mem (fun x y => max_choice x y) h

lemma le_natMax? {l : List Nat} {a b : Nat} (h : l.max? = some a) (hb : b ∈ l) :
    b ≤ a :=
  (List.max?_le_iff (fun _ _ _ => max_le_iff) h).mp le_rfl b hb

lemma natMax?_congr {l l' : List Nat} (h : ∀ a, a ∈ l ↔ a ∈ l') :
    l.max? = l'.max? := by
  cases hl : l.max? with
  | none =>
    rw [List.max?_eq_none_iff] at hl
    subst hl
    symm
    rw [List.max?_eq_none_iff, List.eq_nil_iff_forall_not_mem]
    intro a ha
    exact (List.not_mem_nil a) ((h a).mpr ha)
  | some a =>
    cases hl' : l'.max? with
    | none =>
      rw [List.max?_eq_none_iff] at hl'
      subst hl'
      exact absurd ((h a).mp (natMax?_mem hl)) (List.not_mem_nil a)
    | some b =>
      have hab : a ≤ b := le_natMax? hl' ((h a).mp (natMax?_mem hl))
      have hba : b ≤ a := le_natMax? hl ((h b).mpr (natMax?_mem hl'))
      exact congrArg some (Nat.le_antisymm hab hba)

/-! ## Structure of the assembled model -/

lemma the_model_eq {s : SchedInput ι κ} {a d : List (Constr ι κ)}
    (ha : assignment_constraints s = some a)
    (hd : dependence_constraints s = some d) :
    the_model s = a ++ resource_constraints s ++ d := by
  simp [the_model, build_model, ha, hd]

lemma assign_section_mem {s : SchedInput ι κ} :
    ∀ {js : List ι} {a : List (Constr ι κ)}, assignment_section s js = some a →
      ∀ {j : ι}, j ∈ js → (⟨assign_vars s j, Cmp.eq, 1⟩ : Constr ι κ) ∈ a := by
  intro js
  induction js with
  | nil => intro a _ j hj; cases hj
  | cons j' rest ih =>
    intro a h j hj
    simp only [assignment_section] at h
    cases hc : assignment_constraint s j' with
    | none => rw [hc] at h; cases h
    | some c =>
      rw [hc] at h
      cases hrest : assignment_section s rest with
      | none => rw [hrest] at h; cases h
      | some cs =>
        rw [hrest] at h
        injection h with h
        subst h
        rcases List.mem_cons.mp hj with rfl | hj'
        · rw [assignment_constraint] at hc
          split at hc
          · cases hc
          · injection hc with hc
            subst hc
            exact List.mem_cons_self ..
        · exact List.mem_cons_of_mem _ (ih hrest hj')

lemma assign_section_mem_elim {s : SchedInput ι κ} :
    ∀ {js : List ι} {a : List (Constr ι κ)}, assignment_section s js = some a →
      ∀ {c : Constr ι κ}, c ∈ a →
        ∃ j ∈ js, c = ⟨assign_vars s j, Cmp.eq, 1⟩ := by
  intro js
  induction js with
  | nil =>
    intro a h c hc
    injection h with h
    subst h
    cases hc
  | cons j' rest ih =>
    intro a h c hc
    simp only [assignment_section] at h
    cases hcj : assignment_constraint s j' with
    | none => rw [hcj] at h; cases h
    | some c' =>
      rw [hcj] at h
      cases hrest : assignment_section s rest with
      | none => rw [hrest] at h; cases h
      | some cs =>
        rw [hrest] at h
        injection h with h
        subst h
        rcases List.mem_cons.mp hc with rfl | hc'
        · refine ⟨j', List.mem_cons_self .., ?_⟩
          rw [assignment_constraint] at hcj
          split at hcj
          · cases hcj
          · injection hcj with hcj
            exact hcj.symm
        · obtain ⟨j, hj, hceq⟩ := ih hrest hc'
          exact ⟨j, List.mem_cons_of_mem _ hj, hceq⟩

lemma assign_section_none {s : SchedInput ι κ} {j : ι}
    (hempty : assign_vars s j = []) :
    ∀ {js : List ι}, j ∈ js → assignment_section s js = none := by
  intro js
  induction js with
  | nil => intro h; cases h
  | cons j' rest ih =>
    intro h
    rcases List.mem_cons.mp h with rfl | h'
    · have hc : assignment_constraint s j = none := by
        rw [assignment_constraint, if_pos hempty]
      unfold assignment_section
      rw [hc]
    · have hrest := ih h'
      unfold assignment_section
      rw [hrest]
      cases assignment_constraint s j' <;> rfl

lemma assign_constr_mem_model {s : SchedInput ι κ} {a d : List (Constr ι κ)}
    (ha : assignment_constraints s = some a)
    (hd : dependence_constraints s = some d) {j : ι} (hj : j ∈ s.n_i) :
    (⟨assign_vars s j, Cmp.eq, 1⟩ : Constr ι κ) ∈ the_model s := by
  rw [the_model_eq ha hd]
  exact List.mem_append_left _ (List.mem_append_left _ (assign_section_mem ha hj))

lemma resource_constr_mem {s : SchedInput ι κ} {k : κ} {n : Nat}
    (hk : k ∈ s.n_r_f) (h1 : 1 ≤ n) (h2 : n ≤ s.M_steps) :
    (⟨resource_vars s k n, Cmp.le, s.R k⟩ : Constr ι κ) ∈ resource_constraints s := by
  refine List.mem_flatMap.mpr ⟨k, hk, List.mem_map.mpr ⟨n, ?_, rfl⟩⟩
  rw [List.mem_range'_1]
  omega

lemma dep_section_edge_isSome {s : SchedInput ι κ} :
    ∀ {es : List (ι × ι × String)} {d : List (Constr ι κ)},
      dep_section s es = some d → ∀ {i j : ι} {r : String},
        (i, j, r) ∈ es → (dep_pairs s i j).isSome := by
  intro es
  induction es with
  | nil => intro d _ i j r hmem; cases hmem
  | cons e rest ih =>
    intro d h i j r hmem
    obtain ⟨ie, je, re⟩ := e
    simp only [dep_section] at h
    cases hp : dep_pairs s ie je with
    | none => rw [hp] at h; cases h
    | some ps =>
      rw [hp] at h
      cases hrest : dep_section s rest with
      | none => rw [hrest] at h; cases h
      | some cs =>
        rcases List.mem_cons.mp hmem with heq | hmem'
        · cases heq
          simp [hp]
        · exact ih hrest hmem'

lemma dep_section_mem_intro {s : SchedInput ι κ} :
    ∀ {es : List (ι × ι × String)} {d : List (Constr ι κ)},
      dep_section s es = some d → ∀ {i j : ι} {r : String},
        (i, j, r) ∈ es → ∀ {ps : List (Nat × Nat)},
          dep_pairs s i j = some ps → ∀ {p : Nat × Nat},
            p ∈ ps → dep_constraint s i j p.1 p.2 ∈ d := by
  intro es
  induction es with
  | nil => intro d _ i j r hmem; cases hmem
  | cons e rest ih =>
    intro d h i j r hmem ps hps p hp
    obtain ⟨ie, je, re⟩ := e
    simp only [dep_section] at h
    cases hpe : dep_pairs s ie je with
    | none => rw [hpe] at h; cases h
    | some pse =>
      rw [hpe] at h
      cases hrest : dep_section s rest with
      | none => rw [hrest] at h; cases h
      | some cs =>
        rw [hrest] at h
        injection h with h
        subst h
        rcases List.mem_cons.mp hmem with heq | hmem'
        · obtain ⟨rfl, rfl, rfl⟩ := Prod.mk.injEq .. ▸ heq
          rw [hpe] at hps
          injection hps with hps
          subst hps
          exact List.mem_append_left _ (List.mem_map.mpr ⟨p, hp, rfl⟩)
        · exact List.mem_append_right _ (ih hrest hmem' hps hp)

lemma dep_section_mem_elim {s : SchedInput ι κ} :
    ∀ {es : List (ι × ι × String)} {d : List (Constr ι κ)},
      dep_section s es = some d → ∀ {c : Constr ι κ}, c ∈ d →
        ∃ (i j : ι) (r : String) (ps : List (Nat × Nat)) (p : Nat × Nat),
          (i, j, r) ∈ es ∧ dep_pairs s i j = some ps ∧ p ∈ ps ∧
            c = dep_constraint s i j p.1 p.2 := by
  intro es
  induction es with
  | nil =>
    intro d h c hc
    injection h with h
    subst h
    cases hc
  | cons e rest ih =>
    intro d h c hc
    obtain ⟨ie, je, re⟩ := e
    simp only [dep_section] at h
    cases hpe : dep_pairs s ie je with
    | none => rw [hpe] at h; cases h
    | some pse =>
      rw [hpe] at h
      cases hrest : dep_section s rest with
      | none => rw [hrest] at h; cases h
      | some cs =>
        rw [hrest] at h
        injection h with h
        subst h
        rcases List.mem_append.mp hc with hc1 | hc2
        · obtain ⟨p, hp, rfl⟩ := List.mem_map.mp hc1
          exact ⟨ie, je, re, pse, p, List.mem_cons_self .., hpe, hp, rfl⟩
        · obtain ⟨i, j, r, ps, p, hmem, hps, hp, hceq⟩ := ih hrest hc2
          exact ⟨i, j, r, ps, p, List.mem_cons_of_mem _ hmem, hps, hp, hceq⟩

lemma mem_cand_pairs {s : SchedInput ι κ} {i j : ι} {ni nj : Nat} :
    (ni, nj) ∈ cand_pairs s i j ↔ ni ∈ s.N i ∧ nj ∈ s.N j := by
  simp only [cand_pairs, List.mem_flatMap, List.mem_map, Prod.mk.injEq]
  constructor
  · rintro ⟨a, ha, b, hb, rfl, rfl⟩
    exact ⟨ha, hb⟩
  · rintro ⟨ha, hb⟩
    exact ⟨ni, ha, nj, hb, rfl, rfl⟩

lemma dep_pairs_eq {s : SchedInput ι κ} {i j : ι} {L : Nat}
    (hL : (lat_list s i).max? = some L) :
    dep_pairs s i j =
      some ((cand_pairs s i j).filter fun p => decide (p.2 ≤ p.1 + L)) := by
  simp [dep_pairs, hL]

lemma qpass_iff {s : SchedInput ι κ} {k : κ} {i : ι} {ni nj q : Nat}
    (hq : qfind s k i = some q) : qpass s k i ni nj = true ↔ nj < ni + q := by
  simp only [qpass, hq, decide_eq_true_eq]
  omega

/-! ## Arithmetic helpers on list sums -/

lemma sum_ge_two {α : Type} (x : α → Nat) {l₁ l₂ : List α} {a b : α}
    (ha : a ∈ l₁) (hb : b ∈ l₂) (hxa : x a = 1) (hxb : x b = 1) :
    2 ≤ ((l₁ ++ l₂).map x).sum := by
  rw [List.map_append, List.sum_append]
  have h1 : x a ≤ (l₁.map x).sum :=
    List.single_le_sum (fun _ _ => Nat.zero_le _) _ (List.mem_map.mpr ⟨a, ha, rfl⟩)
  have h2 : x b ≤ (l₂.map x).sum :=
    List.single_le_sum (fun _ _ => Nat.zero_le _) _ (List.mem_map.mpr ⟨b, hb, rfl⟩)
  omega

lemma sum_eq_one_unique {α : Type} (x : α → Nat) :
    ∀ {l : List α}, (l.map x).sum = 1 →
      ∃ v ∈ l, x v = 1 ∧ ∀ w ∈ l, x w ≠ 0 → w = v := by
  intro l
  induction l with
  | nil => intro h; simp at h
  | cons a t ih =>
    intro h
    simp only [List.map_cons, List.sum_cons] at h
    by_cases hxa : x a = 0
    · rw [hxa, Nat.zero_add] at h
      obtain ⟨v, hv, hxv, huniq⟩ := ih h
      refine ⟨v, List.mem_cons_of_mem _ hv, hxv, ?_⟩
      intro w hw hxw
      rcases List.mem_cons.mp hw with rfl | hw'
      · exact absurd hxa hxw
      · exact huniq w hw' hxw
    · have hxa1 : x a = 1 ∧ (t.map x).sum = 0 := by omega
      refine ⟨a, List.mem_cons_self .., hxa1.1, ?_⟩
      intro w hw hxw
      rcases List.mem_cons.mp hw with rfl | hw'
      · rfl
      · have : x w = 0 := by
          have := List.sum_eq_zero_iff.mp hxa1.2
          exact this (x w) (List.mem_map.mpr ⟨w, hw', rfl⟩)
        exact absurd this hxw

lemma sum_le_of_nodup_subset {α : Type} (x : α → Nat) {l₁ l₂ : List α}
    (h₁ : l₁.Nodup) (hsub : l₁ ⊆ l₂) : (l₁.map x).sum ≤ (l₂.map x).sum := by
  obtain ⟨l, hperm, hsl⟩ := h₁.subperm hsub
  calc (l₁.map x).sum = (l.map x).sum := ((hperm.map x).sum_eq).symm
    _ ≤ (l₂.map x).sum := (hsl.map x).sum_le_sum (fun _ _ => Nat.zero_le _)

lemma map_sum_filter_zero {α : Type} (x : α → Nat) (p : α → Bool) :
    ∀ {l : List α}, (∀ a ∈ l, p a = false → x a = 0) →
      (l.map x).sum = ((l.filter p).map x).sum := by
  intro l
  induction l with
  | nil => intro _; rfl
  | cons a t ih =>
    intro h
    have ht : ∀ b ∈ t, p b = false → x b = 0 :=
      fun b hb => h b (List.mem_cons_of_mem _ hb)
    cases hpa : p a with
    | true => simp [List.filter_cons, hpa, ih ht]
    | false =>
      simp [List.filter_cons, hpa, ih ht, h a (List.mem_cons_self ..) hpa]

/-! ## Characterizations of the constraint variable lists -/

lemma satisfies_le_iff {x : ι × Nat × κ → Nat} {vs : List (ι × Nat × κ)} {b : Nat} :
    satisfies x ⟨vs, Cmp.le, b⟩ ↔ (vs.map x).sum ≤ b := Iff.rfl

lemma satisfies_eq_iff {x : ι × Nat × κ → Nat} {vs : List (ι × Nat × κ)} {b : Nat} :
    satisfies x ⟨vs, Cmp.eq, b⟩ ↔ (vs.map x).sum = b := Iff.rfl

lemma mem_assign_vars_elim {s : SchedInput ι κ} {j : ι} {v : ι × Nat × κ}
    (h : v ∈ assign_vars s j) :
    v.1 = j ∧ v.2.2 ∈ s.n_r_f ∧ (j, v.2.2) ∈ s.e_r ∧ v.2.1 ∈ s.N j := by
  simp only [assign_vars, List.mem_flatMap] at h
  obtain ⟨k, hk, hv⟩ := h
  by_cases he : (j, k) ∈ s.e_r
  · rw [if_pos he] at hv
    obtain ⟨n, hn, rfl⟩ := List.mem_map.mp hv
    exact ⟨rfl, hk, he, hn⟩
  · rw [if_neg he] at hv
    cases hv

lemma mem_assign_vars_intro {s : SchedInput ι κ} {j : ι} {n : Nat} {k : κ}
    (hk : k ∈ s.n_r_f) (he : (j, k) ∈ s.e_r) (hn : n ∈ s.N j) :
    (j, n, k) ∈ assign_vars s j := by
  simp only [assign_vars, List.mem_flatMap]
  exact ⟨k, hk, by rw [if_pos he]; exact List.mem_map.mpr ⟨n, hn, rfl⟩⟩

lemma assign_vars_nodup {s : SchedInput ι κ} {j : ι}
    (hnr : s.n_r_f.Nodup) (hNj : (s.N j).Nodup) : (assign_vars s j).Nodup := by
  rw [assign_vars, List.nodup_flatMap]
  refine ⟨?_, ?_⟩
  · intro k _
    split
    · exact hNj.map_on fun a _ b _ h => by
        injection h with _ h
        injection h
    · exact List.nodup_nil
  · refine hnr.imp ?_
    intro k k' hkk' v hv hv'
    have h2 : ∀ {kk : κ}, v ∈ (if (j, kk) ∈ s.e_r then
        (s.N j).map (fun n => (j, n, kk)) else []) → v.2.2 = kk := by
      intro kk hvk
      split at hvk
      · obtain ⟨n, _, rfl⟩ := List.mem_map.mp hvk
        rfl
      · cases hvk
    exact hkk' ((h2 hv).symm.trans (h2 hv'))

lemma mem_resource_vars {s : SchedInput ι κ} {k : κ} {n : Nat} {v : ι × Nat × κ} :
    v ∈ resource_vars s k n ↔ v.1 ∈ s.n_i ∧ (v.1, k) ∈ s.e_r ∧ v.2 = (n, k) := by
  simp only [resource_vars, List.mem_map, List.mem_filter, decide_eq_true_eq]
  constructor
  · rintro ⟨a, ⟨ha, he⟩, rfl⟩
    exact ⟨ha, he, rfl⟩
  · obtain ⟨v1, vn, vk⟩ := v
    rintro ⟨ha, he, hv⟩
    injection hv with h1 h2
    subst h1; subst h2
    exact ⟨v1, ⟨ha, he⟩, rfl⟩

lemma resource_vars_nodup {s : SchedInput ι κ} {k : κ} {n : Nat}
    (hni : s.n_i.Nodup) : (resource_vars s k n).Nodup :=
  (hni.filter _).map_on fun a _ b _ h => by injection h

/-! ## Claim C2 — the enumerated decision-variable space -/

/-- C2 (counterexample): the claim that the builder enumerates only
eligible, in-window triples is false: on `exA` the triple
`("i", 2, "MUL")` is enumerated although `("i","MUL")` is not eligible and
cycle 2 is outside the window `N("i") = [1]`. -/
theorem C2_counterexample :
    ("i", 2, "MUL") ∈ decision_variable exA ∧
      ¬((("i", "MUL") ∈ exA.e_r) ∧ 2 ∈ exA.N "i") := by
  decide

/-- C2 (amended): the decision-variable space enumerated by the builder
(line 64) is exactly the full cross product of the instruction list, the
unit-kind list and the cycles `1..M` — eligibility and valid windows do
not restrict it. -/
theorem C2_decision_variable_full_cross_product (s : SchedInput ι κ)
    (j : ι) (n : Nat) (k : κ) :
    (j, n, k) ∈ decision_variable s ↔
      j ∈ s.n_i ∧ k ∈ s.n_r_f ∧ 1 ≤ n ∧ n ≤ s.M_steps := by
  simp only [decision_variable, List.mem_flatMap, List.mem_map,
    List.mem_range'_1, Prod.mk.injEq]
  constructor
  · rintro ⟨j', hj, k', hk, n', hn, rfl, rfl, rfl⟩
    exact ⟨hj, hk, by omega⟩
  · rintro ⟨hj, hk, h1, h2⟩
    exact ⟨j, hj, k, hk, n, by omega, rfl, rfl, rfl⟩

/-! ## Claim C3 — the assignment constraints -/

/-- C3: for every instruction `j` the assembled model contains the
constraint that the sum of `x[j,n,k]` over exactly the pairs `(n,k)` with
`(j,k) ∈ E_R` and `n ∈ N(j)` equals `1`.  (Each such variable occurs once:
the variable list is duplicate-free.)  The hypothesis `hclosed` is the
machine-model invariant that eligibility only names units in `n_r_f`. -/
theorem C3_assignment_constraint (s : SchedInput ι κ) {a : List (Constr ι κ)}
    (ha : assignment_constraints s = some a) {d : List (Constr ι κ)}
    (hd : dependence_constraints s = some d) {j : ι} (hj : j ∈ s.n_i)
    (hclosed : ∀ p ∈ s.e_r, p.2 ∈ s.n_r_f)
    (hnr : s.n_r_f.Nodup) (hNj : (s.N j).Nodup) :
    ∃ c ∈ the_model s, c.cmp = Cmp.eq ∧ c.bound = 1 ∧ c.vars.Nodup ∧
      ∀ v : ι × Nat × κ, v ∈ c.vars ↔
        v.1 = j ∧ (j, v.2.2) ∈ s.e_r ∧ v.2.1 ∈ s.N j := by
  refine ⟨⟨assign_vars s j, Cmp.eq, 1⟩, ?_, rfl, rfl,
    assign_vars_nodup hnr hNj, ?_⟩
  · exact assign_constr_mem_model ha hd hj
  · intro v
    constructor
    · intro hv
      obtain ⟨h1, _, h3, h4⟩ := mem_assign_vars_elim hv
      exact ⟨h1, h3, h4⟩
    · obtain ⟨v1, vn, vk⟩ := v
      rintro ⟨rfl, he, hn⟩
      exact mem_assign_vars_intro (hclosed _ he) he hn

/-- C3 (witness): the assignment constraint of instruction `i` in the
model built from `exC`. -/
theorem C3_witness :
    ∃ c ∈ the_model exC, c.cmp = Cmp.eq ∧ c.bound = 1 ∧ c.vars.Nodup ∧
      ∀ v : String × Nat × String, v ∈ c.vars ↔
        v.1 = "i" ∧ ("i", v.2.2) ∈ exC.e_r ∧ v.2.1 ∈ exC.N "i" :=
  C3_assignment_constraint exC (a := (assignment_constraints exC).getD [])
    (by decide) (d := (dependence_constraints exC).getD [])
    (by decide) (by decide) (by decide) (by decide) (by decide)

/-! ## Claim C4 — the resource constraints -/

/-- C4: for every unit kind `k` and cycle `n ∈ [1, M]` the assembled model
contains the constraint bounding by `R k` the sum of `x[j,n,k]` over
exactly the instructions `j` with `(j,k) ∈ E_R`; consequently in any
feasible solution that count never exceeds `R k`. -/
theorem C4_resource_constraint (s : SchedInput ι κ) {a : List (Constr ι κ)}
    (ha : assignment_constraints s = some a) {d : List (Constr ι κ)}
    (hd : dependence_constraints s = some d) {k : κ} (hk : k ∈ s.n_r_f)
    {n : Nat} (h1 : 1 ≤ n) (h2 : n ≤ s.M_steps) (hni : s.n_i.Nodup)
    (x : ι × Nat × κ → Nat) :
    ∃ c ∈ the_model s, c.cmp = Cmp.le ∧ c.bound = s.R k ∧ c.vars.Nodup ∧
      (∀ v : ι × Nat × κ, v ∈ c.vars ↔
        v.1 ∈ s.n_i ∧ (v.1, k) ∈ s.e_r ∧ v.2 = (n, k)) ∧
      (Feasible s x → constr_sum x c ≤ s.R k) := by
  refine ⟨⟨resource_vars s k n, Cmp.le, s.R k⟩, ?_, rfl, rfl,
    resource_vars_nodup hni, fun v => mem_resource_vars, ?_⟩
  · rw [the_model_eq ha hd]
    exact List.mem_append_left _
      (List.mem_append_right _ (resource_constr_mem hk h1 h2))
  · intro hfeas
    have hc : (⟨resource_vars s k n, Cmp.le, s.R k⟩ : Constr ι κ) ∈ the_model s := by
      rw [the_model_eq ha hd]
      exact List.mem_append_left _
        (List.mem_append_right _ (resource_constr_mem hk h1 h2))
    exact hfeas.2 _ hc

/-- C4 (witness): the resource constraint of unit `ALU` at cycle 1 in the
model built from `exC`, evaluated on the feasible schedule `xC`. -/
theorem C4_witness :
    ∃ c ∈ the_model exC, c.cmp = Cmp.le ∧ c.bound = exC.R "ALU" ∧ c.vars.Nodup ∧
      (∀ v : String × Nat × String, v ∈ c.vars ↔
        v.1 ∈ exC.n_i ∧ (v.1, "ALU") ∈ exC.e_r ∧ v.2 = (1, "ALU")) ∧
      (Feasible exC xC → constr_sum xC c ≤ exC.R "ALU") :=
  C4_resource_constraint exC (a := (assignment_constraints exC).getD [])
    (by decide) (d := (dependence_constraints exC).getD [])
    (by decide) (by decide) (by decide) (by decide) (by decide) xC

/-! ## Claim C8 — how `schedule()` reports infeasibility -/

/-- C8: the claim that scheduling infeasibility is surfaced to the caller
as a distinct result value is contradicted by the code: `schedule()`
(lines 127–161) has no `return` statement and never branches on the solver
status, so the caller receives `none` whatever the solver reported — the
feasible and infeasible outcomes are indistinguishable in the returned
value. -/
theorem C8_schedule_return_constant (s : SchedInput ι κ)
    (o o' : SolverOutcome ι κ) :
    schedule_return s o = schedule_return s o' ∧ schedule_return s o = none :=
  ⟨rfl, rfl⟩

/-! ## The core interference argument for the dependence constraints -/

/-- If a feasible solution schedules the producer `i` of an edge at `ni` on
a unit `ki` whose latency `q` keeps it in flight at `nj` (`nj < ni + q`),
and the consumer `j` at `nj`, then the emitted constraint for the pair
`(ni, nj)` sums both variables and is violated. -/
lemma dep_interference {s : SchedInput ι κ} {a : List (Constr ι κ)}
    (ha : assignment_constraints s = some a) {d : List (Constr ι κ)}
    (hd : dependence_constraints s = some d)
    {x : ι × Nat × κ → Nat} (hfeas : Feasible s x)
    {i j : ι} {r : String} (hedge : (i, j, r) ∈ s.E_d_true)
    {ni nj : Nat} {ki kj : κ} (hxi : x (i, ni, ki) = 1) (hxj : x (j, nj, kj) = 1)
    (hei : (i, ki) ∈ s.e_r) (hej : (j, kj) ∈ s.e_r)
    (hni : ni ∈ s.N i) (hnj : nj ∈ s.N j)
    {q : Nat} (hq : qfind s ki i = some q) (hlt : nj < ni + q) : False := by
  have hql : q ∈ lat_list s i := mem_lat_list_iff.mpr ⟨ki, qfind_mem hq⟩
  cases hL : (lat_list s i).max? with
  | none =>
    rw [List.max?_eq_none_iff] at hL
    rw [hL] at hql
    cases hql
  | some L =>
    have hqL : q ≤ L := le_natMax? hL hql
    have hpair : (ni, nj) ∈ (cand_pairs s i j).filter fun p =>
        decide (p.2 ≤ p.1 + L) := by
      rw [List.mem_filter]
      exact ⟨mem_cand_pairs.mpr ⟨hni, hnj⟩, by simp; omega⟩
    have hc : dep_constraint s i j ni nj ∈ d :=
      dep_section_mem_intro hd hedge (dep_pairs_eq hL) hpair
    have hcm : dep_constraint s i j ni nj ∈ the_model s := by
      rw [the_model_eq ha hd]
      exact List.mem_append_right _ hc
    have hsat := hfeas.2 _ hcm
    have hm1 : (i, ni, ki) ∈
        ((elig_units s i).filter fun k => qpass s k i ni nj).map
          (fun k => (i, ni, k)) :=
      List.mem_map.mpr ⟨ki,
        List.mem_filter.mpr ⟨mem_elig_units.mpr hei, (qpass_iff hq).mpr hlt⟩, rfl⟩
    have hm2 : (j, nj, kj) ∈ (elig_units s j).map (fun k => (j, nj, k)) :=
      List.mem_map.mpr ⟨kj, mem_elig_units.mpr hej, rfl⟩
    have htwo := sum_ge_two x hm1 hm2 hxi hxj
    rw [dep_constraint, satisfies_le_iff] at hsat
    omega

/-! ## Claim C5 — no consumer inside the producer's occupancy window -/

/-- C5: for every dependency edge `(i,j,_)` and every feasible 0/1 solution
of the assembled model, if `x[i,n_i,k_i] = 1` and `x[j,n_j,k_j] = 1` with
both triples eligible and in-window, then `n_j` does not fall strictly
within `i`'s occupancy window on its assigned unit:
`n_i ≤ n_j < n_i + Q[k_i,i]` is impossible. -/
theorem C5_no_overlap (s : SchedInput ι κ) {a : List (Constr ι κ)}
    (ha : assignment_constraints s = some a) {d : List (Constr ι κ)}
    (hd : dependence_constraints s = some d)
    {x : ι × Nat × κ → Nat} (hfeas : Feasible s x)
    {i j : ι} {r : String} (hedge : (i, j, r) ∈ s.E_d_true)
    {ni nj : Nat} {ki kj : κ} (hxi : x (i, ni, ki) = 1) (hxj : x (j, nj, kj) = 1)
    (hei : (i, ki) ∈ s.e_r) (hej : (j, kj) ∈ s.e_r)
    (hni : ni ∈ s.N i) (hnj : nj ∈ s.N j)
    {q : Nat} (hq : qfind s ki i = some q) :
    ¬(ni ≤ nj ∧ nj < ni + q) := by
  rintro ⟨-, h2⟩
  exact dep_interference ha hd hfeas hedge hxi hxj hei hej hni hnj hq h2

/-- C5 (witness): on `exC` with the feasible schedule `xC` (producer `i` at
cycle 1 with latency 2, consumer `j` at cycle 3), cycle 3 is outside the
occupancy window `[1, 3)`. -/
theorem C5_witness : ¬((1 : Nat) ≤ 3 ∧ (3 : Nat) < 1 + 2) :=
  C5_no_overlap exC (a := (assignment_constraints exC).getD []) (by decide)
    (d := (dependence_constraints exC).getD []) (by decide)
    (x := xC) (by decide)
    (show ("i", "j", "a") ∈ exC.E_d_true by decide)
    (show xC ("i", 1, "ALU") = 1 by decide)
    (show xC ("j", 3, "ALU") = 1 by decide)
    (show ("i", "ALU") ∈ exC.e_r by decide)
    (show ("j", "ALU") ∈ exC.e_r by decide)
    (show 1 ∈ exC.N "i" by decide)
    (show 3 ∈ exC.N "j" by decide)
    (show qfind exC "ALU" "i" = some 2 by decide)

/-! ## Claim C10 — the enforced latency bound -/

/-- C10: for every dependency edge and feasible solution, the consumer's
issue cycle is at least the producer's issue cycle plus the producer's
latency on its assigned unit, `n_j ≥ n_i + Q[k_i,i]`; in particular, as
soon as that latency is positive the consumer is scheduled strictly after
the producer. -/
theorem C10_latency_enforced (s : SchedInput ι κ) {a : List (Constr ι κ)}
    (ha : assignment_constraints s = some a) {d : List (Constr ι κ)}
    (hd : dependence_constraints s = some d)
    {x : ι × Nat × κ → Nat} (hfeas : Feasible s x)
    {i j : ι} {r : String} (hedge : (i, j, r) ∈ s.E_d_true)
    {ni nj : Nat} {ki kj : κ} (hxi : x (i, ni, ki) = 1) (hxj : x (j, nj, kj) = 1)
    (hei : (i, ki) ∈ s.e_r) (hej : (j, kj) ∈ s.e_r)
    (hni : ni ∈ s.N i) (hnj : nj ∈ s.N j)
    {q : Nat} (hq : qfind s ki i = some q) :
    ni + q ≤ nj ∧ (1 ≤ q → ni < nj) := by
  have hmain : ni + q ≤ nj := by
    by_contra hcon
    exact dep_interference ha hd hfeas hedge hxi hxj hei hej hni hnj hq (by omega)
  exact ⟨hmain, fun hpos => by omega⟩

/-- C10 (witness): on `exC` with the feasible schedule `xC`, the consumer's
cycle 3 is at least `1 + 2`. -/
theorem C10_witness : (1 : Nat) + 2 ≤ 3 ∧ ((1 : Nat) ≤ 2 → (1 : Nat) < 3) :=
  C10_latency_enforced exC (a := (assignment_constraints exC).getD []) (by decide)
    (d := (dependence_constraints exC).getD []) (by decide)
    (x := xC) (by decide)
    (show ("i", "j", "a") ∈ exC.E_d_true by decide)
    (show xC ("i", 1, "ALU") = 1 by decide)
    (show xC ("j", 3, "ALU") = 1 by decide)
    (show ("i", "ALU") ∈ exC.e_r by decide)
    (show ("j", "ALU") ∈ exC.e_r by decide)
    (show 1 ∈ exC.N "i" by decide)
    (show 3 ∈ exC.N "j" by decide)
    (show qfind exC "ALU" "i" = some 2 by decide)

/-! ## Claim C6 — uniqueness of the recovered (cycle, unit) pair -/

/-- C6 (counterexample): the claim that a feasible solution sets exactly
one variable of each instruction to 1 *among all variables created for it*
is false: on `exB` (window `[1]`, horizon 2) the assignment `xB` sets both
`x[i,1,ALU]` and `x[i,2,ALU]` — the out-of-window variable exists (line
64) and appears only in the cycle-2 resource constraint, so the model is
still satisfied. -/
theorem C6_counterexample :
    Feasible exB xB ∧
      ("i", 1, "ALU") ∈ decision_variable exB ∧
      ("i", 2, "ALU") ∈ decision_variable exB ∧
      xB ("i", 1, "ALU") = 1 ∧ xB ("i", 2, "ALU") = 1 ∧
      (("i", 1, "ALU") : String × Nat × String) ≠ ("i", 2, "ALU") := by
  decide

/-- C6 (amended): in any feasible solution, exactly one pair `(n, k)` with
`(j,k)` eligible and `n` in `j`'s valid window has `x[j,n,k] = 1` — the
scheduled pair is recovered by direct lookup among the variables of `j`'s
assignment constraint (but variables of `j` outside that index set may
also be 1). -/
theorem C6_unique_in_window (s : SchedInput ι κ) {a : List (Constr ι κ)}
    (ha : assignment_constraints s = some a) {d : List (Constr ι κ)}
    (hd : dependence_constraints s = some d)
    {x : ι × Nat × κ → Nat} (hfeas : Feasible s x) {j : ι} (hj : j ∈ s.n_i) :
    ∃ n k, (j, n, k) ∈ assign_vars s j ∧ x (j, n, k) = 1 ∧
      ∀ n' k', (j, n', k') ∈ assign_vars s j → x (j, n', k') ≠ 0 →
        n' = n ∧ k' = k := by
  have hcm : (⟨assign_vars s j, Cmp.eq, 1⟩ : Constr ι κ) ∈ the_model s :=
    assign_constr_mem_model ha hd hj
  have hsum : ((assign_vars s j).map x).sum = 1 :=
    satisfies_eq_iff.mp (hfeas.2 _ hcm)
  obtain ⟨v, hv, hxv, huniq⟩ := sum_eq_one_unique x hsum
  obtain ⟨v1, vn, vk⟩ := v
  have hv1 : v1 = j := (mem_assign_vars_elim hv).1
  subst hv1
  refine ⟨vn, vk, hv, hxv, ?_⟩
  intro n' k' hmem hne
  have := huniq (v1, n', k') hmem hne
  injection this with h1 h2
  injection h2 with h2 h3
  exact ⟨h2, h3⟩

/-- C6 (witness): on `exC` with the feasible schedule `xC`, instruction `i`
has a unique in-window assigned pair. -/
theorem C6_witness :
    ∃ n k, ("i", n, k) ∈ assign_vars exC "i" ∧ xC ("i", n, k) = 1 ∧
      ∀ n' k', ("i", n', k') ∈ assign_vars exC "i" → xC ("i", n', k') ≠ 0 →
        n' = n ∧ k' = k :=
  C6_unique_in_window exC (a := (assignment_constraints exC).getD [])
    (by decide) (d := (dependence_constraints exC).getD [])
    (by decide) (x := xC) (by decide) (by decide)

/-! ## Claim C7 — malformed input and model construction -/

/-- C7 (counterexample): the claim that on malformed input model
construction does not fail and still assembles a model containing the
degenerate constraint `0 = 1` is false on both malformation kinds.  On
`exD` instruction `a` has no eligible unit kind; on `exE` instruction `a`
has an eligible unit but an empty valid window.  In both cases line 88's
sum over the empty index set is the Python int `0`, `0 == 1` is the bool
`False`, and `oasic_model += False` raises `TypeError` in pulp, so no
model is assembled — and on `exD` this fires in the assignment loop,
before line 120's `max([])` could raise. -/
theorem C7_counterexample :
    build_model exD = none ∧ build_model exE = none ∧
      assignment_constraints exD = none ∧ assignment_constraints exE = none := by
  decide

/-- C7 (amended): for malformed input — an instruction whose eligible
unit-cycle index set is empty, because it has no eligible unit kind or an
empty valid window — the builder performs no defensive validation, but it
does not assemble an infeasible model either: line 88's empty sum turns
the comparison into the Python bool `False` and pulp's `+=` raises
`TypeError`, so model construction fails in the assignment loop, before
the dependence constraints and before the solver is ever invoked.  The
malformation is reported as this construction-time error, not through
solver infeasibility. -/
theorem C7_construction_fails (s : SchedInput ι κ) {j : ι} (hj : j ∈ s.n_i)
    (hempty : assign_vars s j = []) :
    assignment_constraints s = none ∧ build_model s = none := by
  have h1 : assignment_constraints s = none := assign_section_none hempty hj
  exact ⟨h1, by simp [build_model, h1]⟩

/-! ## Claim C1 — the dependency section is exactly as specified -/

/-- With a well-formed latency table (duplicate-free dict keys, domain
exactly the eligibility relation), the latency list scanned by line 120
has the same members as the latencies of `i`'s eligible units. -/
lemma lat_list_members {s : SchedInput ι κ}
    (hkeys : (s.Q_k_i.map (·.1)).Nodup)
    (hdom1 : ∀ e ∈ s.Q_k_i, (e.1.2, e.1.1) ∈ s.e_r) (i : ι) :
    ∀ a, a ∈ lat_list s i ↔ a ∈ (elig_units s i).filterMap fun k => qfind s k i := by
  intro a
  rw [mem_lat_list_iff, List.mem_filterMap]
  constructor
  · rintro ⟨k, hk⟩
    have he : (i, k) ∈ s.e_r := hdom1 _ hk
    exact ⟨k, mem_elig_units.mpr he, qfind_eq_some_of_mem hkeys hk⟩
  · rintro ⟨k, _, hq⟩
    exact ⟨k, qfind_mem hq⟩

/-- Under the same hypotheses, the `max` of line 120 is `L_max(i)` in the
spec's sense, and it exists whenever `i` has an eligible unit. -/
lemma lat_max_eq_spec_Lmax {s : SchedInput ι κ}
    (hkeys : (s.Q_k_i.map (·.1)).Nodup)
    (hdom1 : ∀ e ∈ s.Q_k_i, (e.1.2, e.1.1) ∈ s.e_r)
    (hdom2 : ∀ p ∈ s.e_r, (qfind s p.2 p.1).isSome)
    {i : ι} (hne : elig_units s i ≠ []) :
    ∃ L, (lat_list s i).max? = some L ∧ spec_Lmax s i = some L := by
  have hcongr : (lat_list s i).max? = spec_Lmax s i :=
    natMax?_congr (lat_list_members hkeys hdom1 i)
  obtain ⟨k, hk⟩ := List.exists_mem_of_ne_nil _ hne
  have hq : (qfind s k i).isSome := hdom2 (i, k) (mem_elig_units.mp hk)
  obtain ⟨q, hq⟩ := Option.isSome_iff_exists.mp hq
  have hmem : q ∈ lat_list s i := mem_lat_list_iff.mpr ⟨k, qfind_mem hq⟩
  cases hmax : (lat_list s i).max? with
  | none =>
    rw [List.max?_eq_none_iff] at hmax
    rw [hmax] at hmem
    cases hmem
  | some L => exact ⟨L, rfl, hcongr ▸ hmax⟩

/-- When the latency table's domain is the eligibility relation, the
emitted constraint of line 121 coincides with the spec's description. -/
lemma dep_constraint_eq_spec {s : SchedInput ι κ}
    (hdom2 : ∀ p ∈ s.e_r, (qfind s p.2 p.1).isSome)
    (i j : ι) (ni nj : Nat) :
    dep_constraint s i j ni nj = spec_dep_constraint s i j ni nj := by
  unfold dep_constraint spec_dep_constraint
  congr 1
  congr 2
  apply List.filter_congr
  intro k hk
  have hq : (qfind s k i).isSome := hdom2 (i, k) (mem_elig_units.mp hk)
  obtain ⟨q, hq⟩ := Option.isSome_iff_exists.mp hq
  rw [qpass, hq]
  simp [hq]

lemma dep_section_eq_spec {s : SchedInput ι κ}
    (hkeys : (s.Q_k_i.map (·.1)).Nodup)
    (hdom1 : ∀ e ∈ s.Q_k_i, (e.1.2, e.1.1) ∈ s.e_r)
    (hdom2 : ∀ p ∈ s.e_r, (qfind s p.2 p.1).isSome) :
    ∀ es : List (ι × ι × String), (∀ e ∈ es, elig_units s e.1 ≠ []) →
      dep_section s es = some (es.flatMap fun e =>
        (spec_pairs s e.1 e.2.1 ((spec_Lmax s e.1).getD 0)).map fun p =>
          spec_dep_constraint s e.1 e.2.1 p.1 p.2) := by
  intro es
  induction es with
  | nil => intro _; rfl
  | cons e rest ih =>
    intro helig
    obtain ⟨i, j, r⟩ := e
    obtain ⟨L, hmax, hspec⟩ :=
      lat_max_eq_spec_Lmax hkeys hdom1 hdom2 (helig _ (List.mem_cons_self ..))
    have hrest := ih fun e he => helig e (List.mem_cons_of_mem _ he)
    simp only [dep_section, dep_pairs_eq hmax, hrest, List.flatMap_cons, hspec,
      Option.getD_some, spec_pairs]
    refine congrArg some (congrArg₂ (· ++ ·) ?_ rfl)
    apply List.map_congr_left
    intro p hp
    exact dep_constraint_eq_spec hdom2 i j p.1 p.2

/-- C1: with a well-formed latency table (duplicate-free keys, defined
exactly on the eligibility relation, as §3 of the spec requires) and every
edge's producer having an eligible unit, the builder emits, for every
true-dependency edge and every cycle pair `(n_i, n_j)` with
`n_j ≤ n_i + L_max(i)`, exactly one constraint of the described
disjunctive form — and no dependency constraints other than these: the
dependency section equals the spec-side section verbatim. -/
theorem C1_dep_section_exact (s : SchedInput ι κ)
    (hkeys : (s.Q_k_i.map (·.1)).Nodup)
    (hdom1 : ∀ e ∈ s.Q_k_i, (e.1.2, e.1.1) ∈ s.e_r)
    (hdom2 : ∀ p ∈ s.e_r, (qfind s p.2 p.1).isSome)
    (helig : ∀ e ∈ s.E_d_true, elig_units s e.1 ≠ []) :
    dependence_constraints s = some (spec_dep_section s) :=
  dep_section_eq_spec hkeys hdom1 hdom2 s.E_d_true helig

/-- C1 (witness): on `exC` the emitted dependency section is exactly the
spec-side section. -/
theorem C1_witness : dependence_constraints exC = some (spec_dep_section exC) :=
  C1_dep_section_exact exC (by decide) (by decide) (by decide) (by decide)

/-- C7 (witness): on `exE` (eligible unit but empty valid window, no
edges) the assignment loop of lines 87–88 fails and no model is built. -/
theorem C7_witness :
    assignment_constraints exE = none ∧ build_model exE = none :=
  C7_construction_fails exE (show "a" ∈ exE.n_i by decide)
    (show assign_vars exE "a" = [] by decide)

/-! ## Claim C9 — relaxation monotonicity -/

lemma elig_units_nodup {s : SchedInput ι κ} (h : s.e_r.Nodup) (i : ι) :
    (elig_units s i).Nodup := by
  refine (h.filter _).map_on ?_
  intro p hp p' hp' hpp
  have hp1 : p.1 = i := by simpa using (List.mem_filter.mp hp).2
  have hp2 : p'.1 = i := by simpa using (List.mem_filter.mp hp').2
  exact Prod.ext (hp1.trans hp2.symm) hpp

lemma window_sum_eq (f : Nat → Nat) {w w' : List Nat}
    (hnod : w.Nodup) (hnod' : w'.Nodup)
    (hsub : ∀ n ∈ w, n ∈ w') (hz : ∀ n, n ∉ w → f n = 0) :
    (w'.map f).sum = (w.map f).sum := by
  rw [map_sum_filter_zero f (fun n => decide (n ∈ w))
    (fun a _ ha => hz a (of_decide_eq_false ha))]
  have hperm : (w'.filter fun n => decide (n ∈ w)).Perm w := by
    apply List.perm_of_nodup_nodup_toFinset_eq (hnod'.filter _) hnod
    ext a
    simp only [List.mem_toFinset, List.mem_filter, decide_eq_true_eq]
    exact ⟨fun h => h.2, fun h => ⟨hsub _ h, h⟩⟩
  exact (hperm.map f).sum_eq

lemma sum_map_flatMap {α γ : Type} (g : γ → Nat) (f : α → List γ) (l : List α) :
    ((l.flatMap f).map g).sum = (l.map fun a => ((f a).map g).sum).sum := by
  induction l with
  | nil => rfl
  | cons a t ih =>
    simp only [List.flatMap_cons, List.map_append, List.sum_append, ih,
      List.map_cons, List.sum_cons]

/-- C9 (counterexample): relaxing by widening a valid window can remove a
feasible solution.  `exB'` is `exB` with the window of `i` widened from
`[1]` to `[1, 2]`; the variable spaces coincide (so "extended with 0 on
new variables" extends nothing), `xB` is feasible for the `exB` model, yet
infeasible for the relaxed `exB'` model: the widened assignment constraint
now sums the out-of-window variable `x[i,2,ALU]` and reads `2 = 1`. -/
theorem C9_counterexample :
    exB.N "i" = [1] ∧ exB'.N "i" = [1, 2] ∧
      decision_variable exB' = decision_variable exB ∧
      Feasible exB xB ∧ ¬ Feasible exB' xB := by
  decide

/-- C9 (amended): relaxation monotonicity holds for solutions that vanish
outside the original valid windows.  If `s'` agrees with `s` except that
valid windows are pointwise supersets and capacities pointwise larger, any
feasible solution of `s`'s model that assigns 0 to every out-of-window
variable of `s` is feasible for `s'`'s model.  (The counterexample shows
the vanishing condition cannot be dropped, because the enumerated variable
space ignores the windows.) -/
theorem C9_relaxation_monotone (s s' : SchedInput ι κ) (x : ι × Nat × κ → Nat)
    (h1 : s'.n_i = s.n_i) (h2 : s'.E_d_true = s.E_d_true)
    (h3 : s'.M_steps = s.M_steps) (h4 : s'.n_r_f = s.n_r_f)
    (h5 : s'.e_r = s.e_r) (h6 : s'.Q_k_i = s.Q_k_i)
    (hR : ∀ k, s.R k ≤ s'.R k) (hN : ∀ j, ∀ n ∈ s.N j, n ∈ s'.N j)
    (hnodN : ∀ j, (s.N j).Nodup) (hnodN' : ∀ j, (s'.N j).Nodup)
    (hnoder : s.e_r.Nodup) (hclosed : ∀ p ∈ s.e_r, p.2 ∈ s.n_r_f)
    (hedges : ∀ e ∈ s.E_d_true, e.1 ∈ s.n_i ∧ e.2.1 ∈ s.n_i)
    (hvanish : ∀ (j : ι) (n : Nat) (k : κ), n ∉ s.N j → x (j, n, k) = 0)
    {a : List (Constr ι κ)} (ha : assignment_constraints s = some a)
    {d : List (Constr ι κ)} (hd : dependence_constraints s = some d)
    (hfeas : Feasible s x) : Feasible s' x := by
  have hdv : decision_variable s' = decision_variable s := by
    unfold decision_variable
    rw [h1, h3, h4]
  constructor
  · intro v hv
    exact hfeas.1 v (hdv ▸ hv)
  intro c hc
  obtain ⟨a', ha', d', hd', hm⟩ : ∃ a', assignment_constraints s' = some a' ∧
      ∃ d', dependence_constraints s' = some d' ∧
        the_model s' = a' ++ resource_constraints s' ++ d' := by
    cases ha' : assignment_constraints s' with
    | none =>
      rw [the_model, build_model, ha'] at hc
      simp at hc
    | some a' =>
      cases hd' : dependence_constraints s' with
      | none =>
        rw [the_model, build_model, ha', hd'] at hc
        simp at hc
      | some d' =>
        exact ⟨a', rfl, d', rfl, the_model_eq ha' hd'⟩
  rw [hm] at hc
  have hassign : ∀ jj ∈ s.n_i, ((assign_vars s jj).map x).sum = 1 := by
    intro jj hjj
    have hcm : (⟨assign_vars s jj, Cmp.eq, 1⟩ : Constr ι κ) ∈ the_model s :=
      assign_constr_mem_model ha hd hjj
    exact satisfies_eq_iff.mp (hfeas.2 _ hcm)
  have hks_le : ∀ jj ∈ s.n_i, ∀ nn ∈ s.N jj, ∀ ks : List κ, ks.Nodup →
      (∀ k ∈ ks, (jj, k) ∈ s.e_r) →
      ((ks.map fun k => (jj, nn, k)).map x).sum ≤ 1 := by
    intro jj hjj nn hnn ks hks hke
    have hnodup : (ks.map fun k => (jj, nn, k)).Nodup :=
      hks.map_on fun a _ b _ h => by
        injection h with _ h
        injection h
    have hsubset : (ks.map fun k => (jj, nn, k)) ⊆ assign_vars s jj := by
      intro v hv
      obtain ⟨k, hkmem, rfl⟩ := List.mem_map.mp hv
      exact mem_assign_vars_intro (hclosed _ (hke k hkmem)) (hke k hkmem) hnn
    calc ((ks.map fun k => (jj, nn, k)).map x).sum
        ≤ ((assign_vars s jj).map x).sum := sum_le_of_nodup_subset x hnodup hsubset
      _ = 1 := hassign jj hjj
  have hks_zero : ∀ (jj : ι) (nn : Nat) (ks : List κ), nn ∉ s.N jj →
      ((ks.map fun k => (jj, nn, k)).map x).sum = 0 := by
    intro jj nn ks hnn
    apply List.sum_eq_zero
    intro a ha
    obtain ⟨v, hv, rfl⟩ := List.mem_map.mp ha
    obtain ⟨k, hkmem, rfl⟩ := List.mem_map.mp hv
    exact hvanish jj nn k hnn
  rcases List.mem_append.mp hc with hc1 | hc2
  · rcases List.mem_append.mp hc1 with hca | hcr
    · -- an assignment constraint of the relaxed model
      obtain ⟨jj, hjj, rfl⟩ := assign_section_mem_elim ha' hca
      rw [h1] at hjj
      rw [satisfies_eq_iff]
      have hne : ((assign_vars s' jj).map x).sum = ((assign_vars s jj).map x).sum := by
        rw [assign_vars, assign_vars, h4, h5, sum_map_flatMap, sum_map_flatMap]
        refine congrArg List.sum (List.map_congr_left ?_)
        intro k _
        by_cases he : (jj, k) ∈ s.e_r
        · rw [if_pos he, if_pos he, List.map_map, List.map_map]
          exact window_sum_eq _ (hnodN jj) (hnodN' jj) (hN jj)
            (fun n hn => hvanish jj n k hn)
        · rw [if_neg he, if_neg he]
      rw [hne]
      exact hassign jj hjj
    · -- a resource constraint of the relaxed model
      obtain ⟨k, hk, hcr'⟩ := List.mem_flatMap.mp hcr
      obtain ⟨n, hn, rfl⟩ := List.mem_map.mp hcr'
      rw [h4] at hk
      rw [h3] at hn
      have hrv : resource_vars s' k n = resource_vars s k n := by
        unfold resource_vars
        rw [h1, h5]
      rw [satisfies_le_iff, hrv]
      have hbounds := List.mem_range'_1.mp hn
      have hcm : (⟨resource_vars s k n, Cmp.le, s.R k⟩ : Constr ι κ) ∈ the_model s := by
        rw [the_model_eq ha hd]
        exact List.mem_append_left _ (List.mem_append_right _
          (resource_constr_mem hk (by omega) (by omega)))
      have := satisfies_le_iff.mp (hfeas.2 _ hcm)
      exact le_trans this (hR k)
  · -- a dependence constraint of the relaxed model
    obtain ⟨i, j, r, ps, p, hedge', hps, hp, rfl⟩ := dep_section_mem_elim hd' hc2
    rw [h2] at hedge'
    have hlat : lat_list s' i = lat_list s i := by
      unfold lat_list
      rw [h6]
    have heli : ∀ ii, elig_units s' ii = elig_units s ii := fun ii => by
      unfold elig_units
      rw [h5]
    obtain ⟨ni, nj⟩ := p
    have hconstr : dep_constraint s' i j ni nj = dep_constraint s i j ni nj := by
      have hqp : (fun k => qpass s' k i ni nj) = fun k => qpass s k i ni nj := by
        funext k
        unfold qpass qfind
        rw [h6]
      rw [dep_constraint, dep_constraint, heli i, heli j, hqp]
    rw [hconstr]
    cases hmax : (lat_list s i).max? with
    | none =>
      simp only [dep_pairs, hlat, hmax] at hps
      split at hps
      · injection hps with hps
        subst hps
        cases hp
      · cases hps
    | some L =>
      have hL' : (lat_list s' i).max? = some L := by rw [hlat]; exact hmax
      rw [dep_pairs_eq hL'] at hps
      injection hps with hps
      subst hps
      have hmemf := List.mem_filter.mp hp
      have hcand := mem_cand_pairs.mp hmemf.1
      have hqual : nj ≤ ni + L := by simpa using hmemf.2
      by_cases hni : ni ∈ s.N i <;> by_cases hnj : nj ∈ s.N j
      · -- both cycles inside the original windows: the same constraint
        -- exists in the original model
        have hpair : (ni, nj) ∈ (cand_pairs s i j).filter
            fun p => decide (p.2 ≤ p.1 + L) :=
          List.mem_filter.mpr ⟨mem_cand_pairs.mpr ⟨hni, hnj⟩, by simpa using hqual⟩
        have hcs : dep_constraint s i j ni nj ∈ d :=
          dep_section_mem_intro hd hedge' (dep_pairs_eq hmax) hpair
        refine hfeas.2 _ ?_
        rw [the_model_eq ha hd]
        exact List.mem_append_right _ hcs
      · rw [dep_constraint, satisfies_le_iff, List.map_append, List.sum_append]
        have hz2 := hks_zero j nj (elig_units s j) hnj
        have hle1 := hks_le i (hedges _ hedge').1 ni hni
          ((elig_units s i).filter fun k => qpass s k i ni nj)
          ((elig_units_nodup hnoder i).filter _)
          (fun k hk => mem_elig_units.mp (List.mem_filter.mp hk).1)
        omega
      · rw [dep_constraint, satisfies_le_iff, List.map_append, List.sum_append]
        have hz1 := hks_zero i ni
          ((elig_units s i).filter fun k => qpass s k i ni nj) hni
        have hle2 := hks_le j (hedges _ hedge').2 nj hnj (elig_units s j)
          (elig_units_nodup hnoder j) (fun k hk => mem_elig_units.mp hk)
        omega
      · rw [dep_constraint, satisfies_le_iff, List.map_append, List.sum_append]
        have hz1 := hks_zero i ni
          ((elig_units s i).filter fun k => qpass s k i ni nj) hni
        have hz2 := hks_zero j nj (elig_units s j) hnj
        omega

/-- C9 (witness): widening `exB`'s window of `i` from `[1]` to `[1, 2]`
keeps the window-respecting schedule `xB1` feasible. -/
theorem C9_witness : Feasible exB' xB1 :=
  C9_relaxation_monotone exB exB' xB1 rfl rfl rfl rfl rfl rfl
    (fun k => le_rfl)
    (fun j n hn => by
      have h : n = 1 := by simpa [exB] using hn
      subst h
      show (1 : Nat) ∈ [1, 2]
      decide)
    (fun j => by
      show ([1] : List Nat).Nodup
      decide)
    (fun j => by
      show ([1, 2] : List Nat).Nodup
      decide)
    (by decide)
    (by decide)
    (by decide)
    (fun j n k hn => by
      unfold xB1
      split
      · rename_i hv
        injection hv with hj hrest
        injection hrest with hn1 hk1
        subst hj
        subst hn1
        exact absurd (by decide : (1 : Nat) ∈ exB.N "i") hn
      · rfl)
    (a := (assignment_constraints exB).getD []) (by decide)
    (d := []) (by decide)
    (by decide)

end Oasic
